import Mathlib

/-!
Verification development for the tree/rule-engine core of spark-catalyst-rs.

Shallow embedding of:
  * `src/trees.rs` — the `TreeNode` trait (traversal, search, map, rewrite,
    pretty-printing).  The trait is polymorphic over a node capability set
    {label, ordered children, deep clone, structural equality}; every instance
    is, through that capability, a finite ordered labelled tree, so we embed
    nodes as the concrete rose tree `TNode` (exactly the shape of the crate's
    own `TestNode` instance: a `String` label and a `Vec` of children).
  * `src/rules.rs` — `Strategy`, `Rule`, `Batch`, `RuleExecutor::execute`
    together with `CatalystError` from `src/errors.rs`.

Rust's `while let Some(child) = self.get_child(idx)` loops enumerate the
children in order 0, 1, … (`get_child` agrees with `num_children`), which we
render as recursion over the child list.
-/

/-- A tree node: a display label and an ordered list of children
(the `TestNode` instance of the `TreeNode<A>` capability in `src/trees.rs`). -/
inductive TNode where
  | mk (label : String) (children : List TNode)
deriving Repr

namespace TNode

mutual

/-- Structural equality of nodes (the `PartialEq` instance in `src/trees.rs`:
label and children are compared recursively, in order). -/
def beq : TNode → TNode → Bool
  | .mk l₁ cs₁, .mk l₂ cs₂ => l₁ == l₂ && beqList cs₁ cs₂

/-- Structural equality of child lists, element by element. -/
def beqList : List TNode → List TNode → Bool
  | [], [] => true
  | [], _ :: _ => false
  | _ :: _, [] => false
  | a :: as, b :: bs => beq a b && beqList as bs

end

mutual

theorem beq_iff_eq : ∀ (a b : TNode), beq a b = true ↔ a = b
  | .mk l₁ cs₁, .mk l₂ cs₂ => by
    simp [beq, beqList_iff_eq cs₁ cs₂]

theorem beqList_iff_eq : ∀ (as bs : List TNode), beqList as bs = true ↔ as = bs
  | [], [] => by simp [beqList]
  | [], _ :: _ => by simp [beqList]
  | _ :: _, [] => by simp [beqList]
  | a :: as, b :: bs => by
    simp [beqList, beq_iff_eq a b, beqList_iff_eq as bs]

end

instance : DecidableEq TNode :=
  fun a b => decidable_of_iff (beq a b = true) (beq_iff_eq a b)

/-- The label of a node. -/
def label : TNode → String
  | .mk l _ => l

/-- The ordered children of a node. -/
def children : TNode → List TNode
  | .mk _ cs => cs

/-- Rust `fn node_name(&self) -> String` — the `TestNode` instance returns its label. -/
def node_name (t : TNode) : String := t.label

/-- Rust `fn num_children(&self) -> usize`. -/
def num_children (t : TNode) : Nat := t.children.length

/-- Rust `fn get_child(&self, idx) -> Option<&A>` — `self.children.get(idx)`. -/
def get_child (t : TNode) (idx : Nat) : Option TNode := t.children.get? idx

/-- Rust `fn set_child(&mut self, idx, child)` as a functional update; out-of-bound
indices are a no-op, as the trait contract requires. -/
def set_child (t : TNode) (idx : Nat) (child : TNode) : TNode :=
  .mk t.label (t.children.set idx child)

/-- Rust `fn is_leaf(&self) -> bool { self.num_children() == 0 }`. -/
def is_leaf (t : TNode) : Bool := t.num_children == 0

mutual

/-- Rust `fn foreach<F>(&self, func: &mut F)`: visit self, then each child
recursively, left to right.  The `FnMut` visitor's mutable state is threaded
explicitly as an accumulator `s : σ`. -/
def foreach {σ : Type} (func : TNode → σ → σ) : TNode → σ → σ
  | .mk l cs, s => foreach_children func cs (func (.mk l cs) s)

/-- The child loop of `foreach` (`while let Some(child) = self.get_child(idx)`). -/
def foreach_children {σ : Type} (func : TNode → σ → σ) : List TNode → σ → σ
  | [], s => s
  | c :: cs, s => foreach_children func cs (foreach func c s)

end

mutual

/-- Rust `fn foreach_up<F>(&self, func: &mut F)`: visit each child recursively,
left to right, then self. -/
def foreach_up {σ : Type} (func : TNode → σ → σ) : TNode → σ → σ
  | .mk l cs, s => func (.mk l cs) (foreach_up_children func cs s)

/-- The child loop of `foreach_up`. -/
def foreach_up_children {σ : Type} (func : TNode → σ → σ) : List TNode → σ → σ
  | [], s => s
  | c :: cs, s => foreach_up_children func cs (foreach_up func c s)

end

/-- Rust `fn map_children<F>(&self, func: &mut F) -> A`: clone self, then for each
index `idx` with `self.get_child(idx) = Some(child)` set the clone's child at
`idx` to `func(child)`.  The loop is modelled index by index, reading children
from the original `src` node and writing into the accumulator `acc`, exactly as
the source reads `self` and mutates `cloned_node`. -/
def map_children_loop (func : TNode → TNode) (src : TNode) (idx : Nat) (acc : TNode) : TNode :=
  match h : src.get_child idx with
  | some child => map_children_loop func src (idx + 1) (acc.set_child idx (func child))
  | none => acc
termination_by src.num_children - idx
decreasing_by
  simp only [get_child] at h
  obtain ⟨hlt, -⟩ := List.get?_eq_some.mp h
  simp only [num_children]
  omega

/-- Rust `fn map_children<F>(&self, func: &mut F) -> A` (entry point). -/
def map_children (func : TNode → TNode) (t : TNode) : TNode :=
  map_children_loop func t 0 t

/-- Rust `map_children` replaces exactly the immediate children, in order. -/
theorem map_children_eq (func : TNode → TNode) (t : TNode) :
    map_children func t = .mk t.label (t.children.map func) := by
  -- general loop lemma: from index `idx` on, the loop rewrites the children
  -- from position `idx` onward of the source list
  suffices h : ∀ (src : List TNode) (l : String) (idx : Nat) (acc : List TNode),
      acc.length = src.length →
      map_children_loop func (.mk l src) idx (.mk l acc) =
        .mk l (acc.take idx ++ (src.drop idx).map func) by
    cases t with
    | mk l cs =>
      simpa [label, children] using h cs l 0 cs rfl
  intro src l idx acc hlen
  induction' hwf : src.length - idx with n ih generalizing idx acc
  case zero =>
    rw [map_children_loop]
    have hnone : (TNode.mk l src).get_child idx = none := by
      simp only [get_child, children, List.get?_eq_none]
      omega
    rw [hnone]
    have hdrop : src.drop idx = [] := List.drop_eq_nil_of_le (by omega)
    simp [hdrop, List.take_of_length_le (show acc.length ≤ idx by omega)]
  case succ =>
    rw [map_children_loop]
    have hlt : idx < src.length := by omega
    have hsome : (TNode.mk l src).get_child idx = some (src.get ⟨idx, hlt⟩) := by
      simp only [get_child, children]
      exact List.get?_eq_get hlt
    rw [hsome]
    have hidxacc : idx < acc.length := by omega
    have hlen' : (acc.set idx (func (src.get ⟨idx, hlt⟩))).length = src.length := by
      simp [hlen]
    show map_children_loop func (.mk l src) (idx + 1)
        (.mk l (acc.set idx (func (src.get ⟨idx, hlt⟩)))) = _
    rw [ih (idx + 1) _ hlen' (by omega)]
    have hset : acc.set idx (func (src.get ⟨idx, hlt⟩)) =
        acc.take idx ++ func (src.get ⟨idx, hlt⟩) :: acc.drop (idx + 1) :=
      List.set_eq_take_cons_drop _ hidxacc
    have hdrop : src.drop idx = src.get ⟨idx, hlt⟩ :: src.drop (idx + 1) := by
      rw [List.get_eq_getElem]
      exact List.drop_eq_getElem_cons hlt
    rw [hset, hdrop]
    congr 1
    rw [List.take_append_eq_append_take]
    have htk : (acc.take idx).length = idx := List.length_take_of_le (by omega)
    rw [htk]
    rw [show idx + 1 - idx = 1 from by omega]
    simp
    have h1 : List.take (idx + 1) (List.take idx acc) = List.take idx acc :=
      List.take_of_length_le (by rw [htk]; omega)
    have hlt2 : idx < (List.map func src).length := by simpa using hlt
    have h2 : List.drop idx (List.map func src) =
        func src[idx] :: List.drop (idx + 1) (List.map func src) := by
      rw [List.drop_eq_getElem_cons hlt2]
      simp
    rw [h1, h2]

/-- Rust `fn transform_down<F>(&self, rule: &mut F) -> A`: apply `rule` to the
current node; on `Some(after_rule)` recurse into the children of the
replacement, on `None` recurse into the original children (in both cases via
`map_children`).  The Rust recursion is not structurally decreasing (the
replacement may be arbitrarily deep), so `fuel` models the depth of the call
stack; `none` means the fuel bound was hit (the Rust program would still be
recursing). -/
def transform_down (fuel : Nat) (rule : TNode → Option TNode) (t : TNode) : Option TNode :=
  match fuel with
  | 0 => none
  | fuel + 1 =>
    match rule t with
    | some after_rule =>
      (after_rule.children.mapM (transform_down fuel rule)).map (TNode.mk after_rule.label)
    | none =>
      (t.children.mapM (transform_down fuel rule)).map (TNode.mk t.label)

mutual

/-- Rust `fn transform_up<F>(&self, rule: &mut F) -> A`: first rewrite every child
recursively (`self.map_children(|node| node.transform_up(rule))`), then apply
`rule` to the updated node, keeping the updated node when the rule yields
`None`. -/
def transform_up (rule : TNode → Option TNode) : TNode → TNode
  | .mk l cs =>
    let updated_node := TNode.mk l (transform_up_children rule cs)
    match rule updated_node with
    | some after_rule => after_rule
    | none => updated_node

/-- The `map_children` child loop of `transform_up`, specialised to the
recursive call on each immediate child. -/
def transform_up_children (rule : TNode → Option TNode) : List TNode → List TNode
  | [] => []
  | c :: cs => transform_up rule c :: transform_up_children rule cs

end

theorem transform_up_children_eq (rule : TNode → Option TNode) (cs : List TNode) :
    transform_up_children rule cs = cs.map (transform_up rule) := by
  induction cs with
  | nil => rfl
  | cons c cs ih => simp [transform_up_children, ih]

/-- Unfolding `transform_up` through `map_children`, matching the source text:
the node with transformed children is built first and the rule is applied to
it. -/
theorem transform_up_eq (rule : TNode → Option TNode) (t : TNode) :
    transform_up rule t =
      match rule (map_children (transform_up rule) t) with
      | some after_rule => after_rule
      | none => map_children (transform_up rule) t := by
  cases t with
  | mk l cs =>
    rw [map_children_eq]
    simp only [transform_up, transform_up_children_eq, label, children]

/-- A run of `n` spaces (`" ".repeat(n)`; all strings here are ASCII, so byte
length and character length agree). -/
def spaces : Nat → String
  | 0 => ""
  | n + 1 => " " ++ spaces n

mutual

/-- Rust `fn gen_tree(&self, depth, prefix, is_last_child, buffer)`: push
`prefix + parent_prefix + node_name` (where `parent_prefix` is `""` at depth 0,
`"+- "` for a last child and `"- "` otherwise), then recurse into each child
with the prefix extended by spaces of `parent_prefix`'s length followed by
`":"` unless the child is the last one.  The `buffer` push order is returned
as a list. -/
def gen_tree : TNode → Nat → String → Bool → List String
  | .mk l cs, depth, pfx, is_last_child =>
    let parent_mark := if depth == 0 then "" else if is_last_child then "+- " else "- "
    let curr := pfx ++ parent_mark ++ (TNode.mk l cs).node_name
    curr :: gen_tree_children cs 0 (TNode.mk l cs).num_children (depth + 1) pfx parent_mark

/-- The child loop of `gen_tree`: `idx` counts up to `total = num_children`,
`parent_mark` is the current node's `parent_prefix`. -/
def gen_tree_children (cs : List TNode) (idx total depth : Nat) (pfx parent_mark : String) :
    List String :=
  match cs with
  | [] => []
  | c :: rest =>
    let is_last_child := idx == total - 1
    let node_sym := if is_last_child then "" else ":"
    let child_pfx := pfx ++ spaces parent_mark.length ++ node_sym
    gen_tree c depth child_pfx is_last_child ++
      gen_tree_children rest (idx + 1) total depth pfx parent_mark

end

/-- Rust `fn internal_tree_lines(&self)`: `gen_tree(0, "", false, buffer)`. -/
def internal_tree_lines (t : TNode) : List String :=
  gen_tree t 0 "" false

/-- Rust `fn tree_string(&self)`: the generated lines joined with a newline. -/
def tree_string (t : TNode) : String :=
  String.intercalate "\n" (internal_tree_lines t)

/-- Rust `format!("{:0width$}", n, width=2)`: decimal rendering of `n` zero-padded
to width 2. -/
def pad2 (n : Nat) : String :=
  if n < 10 then "0" ++ toString n else toString n

/-- Rust `fn numbered_tree_string(&self)`: each line prefixed with its 1-based
position zero-padded to two digits and a space. -/
def numbered_tree_string (t : TNode) : String :=
  String.intercalate "\n"
    ((internal_tree_lines t).enum.map (fun p => pad2 (p.1 + 1) ++ " " ++ p.2))

end TNode

/-- Rust `enum CatalystError` from `src/errors.rs`: the single `Tree(String)` error
kind, raised when the plan is not integral. -/
inductive CatalystError where
  | Tree (msg : String)
deriving DecidableEq, Repr

/-- Rust `enum Strategy` from `src/rules.rs`: `Once` or `FixedPoint(u16)`.  The
`u16` payload is carried as a `Nat`; every value constructible in the source
is below 2^16, and the boundary value `FixedPoint 65535` is exactly where the
executor's `u16` iteration counter can overflow — see `batch_loop_u16`. -/
inductive Strategy where
  | Once
  | FixedPoint (iterations : Nat)
deriving DecidableEq, Repr

/-- Rust `fn num_iterations(&self) -> u16`: `Once → 1`, `FixedPoint(n) → n`. -/
def Strategy.num_iterations : Strategy → Nat
  | .Once => 1
  | .FixedPoint iterations => iterations

/-- Rust `trait Rule`: a name and `fn apply<A>(&self, plan: &A) -> A`.  Note the
source signature returns a plan value directly — not an `Option` and not a
`Result`: a rule always produces the next plan and has no way to signal an
error; "does not apply" is expressed by returning the input plan unchanged. -/
structure Rule (A : Type) where
  name : String
  apply : A → A

/-- Rust `struct Batch<R: Rule>`: name, strategy and rule list.  The executor walks
the rules by index (`for i in 0..batch.num_rules()`), i.e. in declaration
order, which we render as recursion over the list. -/
structure Batch (A : Type) where
  name : String
  strategy : Strategy
  rules : List (Rule A)

/-- The message built by `tree_err!` at `src/rules.rs:113` (the Rust string
literal spans two source lines, so it contains a newline and the 28 spaces of
the continuation line's indentation). -/
def integrity_msg (rule_name batch_name : String) : String :=
  "After applying rule " ++ rule_name ++ " in batch " ++ batch_name ++
    ", the structural integrity of\n" ++ TNode.spaces 28 ++ "the plan is broken"

/-- The inner `for i in 0..batch.num_rules()` loop of `RuleExecutor::execute`:
apply each rule in declaration order to the current plan, checking
`is_plan_integral` immediately after every individual application and
returning the `tree_err!` error on the first violation. -/
def apply_rules {A : Type} (is_plan_integral : A → Bool) (batch_name : String) :
    List (Rule A) → A → Except CatalystError A
  | [], current_plan => .ok current_plan
  | rule :: rest, current_plan =>
    let current_plan := rule.apply current_plan
    if is_plan_integral current_plan then
      apply_rules is_plan_integral batch_name rest current_plan
    else
      .error (.Tree (integrity_msg rule.name batch_name))

/-- The `while do_continue` loop of `RuleExecutor::execute` for one batch.
State: `iteration` (starts at 1), `current_plan`, `last_plan` (previous
iteration's snapshot).  Each pass applies all rules, increments `iteration`,
clears `do_continue` when `iteration > num_iterations` (cap) and when
`current_plan == last_plan` (fixed point), otherwise stores
`last_plan = current_plan` and repeats.  Returns the final plan together with
the final `iteration` counter (so the number of passes performed is
`iteration - 1`, the quantity the source's debug reporting logs).

In the source `iteration` is inferred as `u16` (it is compared against
`num_iterations() -> u16`); here it is widened to `Nat`.  The widening is
exact whenever `num_iterations ≤ 65534`, where no pass can push the counter
past `u16::MAX` (proved in `batch_loop_u16_agrees`); `batch_loop_u16` below
models the `u16` counter faithfully, including its overflow at
`num_iterations = 65535`. -/
def batch_loop {A : Type} [DecidableEq A] (is_plan_integral : A → Bool) (batch : Batch A)
    (num_iterations : Nat) (iteration : Nat) (current_plan last_plan : A) :
    Except CatalystError (A × Nat) :=
  match apply_rules is_plan_integral batch.name batch.rules current_plan with
  | .error e => .error e
  | .ok current_plan =>
    let iteration := iteration + 1
    if current_plan = last_plan then
      -- fixed point reached: do_continue = false
      .ok (current_plan, iteration)
    else if num_iterations < iteration then
      -- max iterations reached: do_continue = false (not an error)
      .ok (current_plan, iteration)
    else
      batch_loop is_plan_integral batch num_iterations iteration current_plan current_plan
termination_by num_iterations + 1 - iteration
decreasing_by omega

/-- The `while do_continue` loop with the source's `u16` iteration counter
modelled faithfully: `iteration += 1` is addition mod 2^16, the behaviour of a
release build (a debug build panics at the overflowing increment instead; in
both builds the loop fails to terminate normally).  Once the counter wraps,
the cap test `iteration > num_iterations` can never fire for
`num_iterations = 65535 = u16::MAX`, because the wrapped counter is always at
most 65535.  `fuel` bounds the number of passes we observe: `none` means the
loop is still running after `fuel` passes.  Checks, their order and the state
updates are otherwise identical to `batch_loop`. -/
def batch_loop_u16 {A : Type} [DecidableEq A] (is_plan_integral : A → Bool) (batch : Batch A)
    (num_iterations : Nat) :
    Nat → Nat → A → A → Option (Except CatalystError (A × Nat))
  | 0, _, _, _ => none
  | fuel + 1, iteration, current_plan, last_plan =>
    match apply_rules is_plan_integral batch.name batch.rules current_plan with
    | .error e => some (.error e)
    | .ok current_plan =>
      let iteration := (iteration + 1) % 65536
      if current_plan = last_plan then
        some (.ok (current_plan, iteration))
      else if num_iterations < iteration then
        some (.ok (current_plan, iteration))
      else
        batch_loop_u16 is_plan_integral batch num_iterations fuel iteration
          current_plan current_plan

/-- Rust `RuleExecutor::execute`: run the batches serially, each under its
strategy's iteration budget, threading the current plan; stop at the first
integrity error.  (`batch_start_plan` only feeds a debug log in the source and
has no effect on the result.) -/
def execute {A : Type} [DecidableEq A] (is_plan_integral : A → Bool) :
    List (Batch A) → A → Except CatalystError A
  | [], current_plan => .ok current_plan
  | batch :: rest, current_plan =>
    match batch_loop is_plan_integral batch batch.strategy.num_iterations 1
        current_plan current_plan with
    | .error e => .error e
    | .ok (current_plan, _) => execute is_plan_integral rest current_plan

/-- The fixture tree `a1(b1(c1,c2), b2(c3), b3)` from the crate's test suite
(`get_small_test_tree_1` in `src/trees.rs`). -/
def get_small_test_tree_1 : TNode :=
  .mk "a1" [
    .mk "b1" [.mk "c1" [], .mk "c2" []],
    .mk "b2" [.mk "c3" []],
    .mk "b3" []]

namespace TNode

mutual

/-- Modelled from the spec: the pre-order visit sequence of a tree — self
before children, children left to right. -/
def preorder_spec : TNode → List TNode
  | .mk l cs => .mk l cs :: preorder_spec_list cs

/-- Modelled from the spec: pre-order visit sequence of a forest. -/
def preorder_spec_list : List TNode → List TNode
  | [] => []
  | c :: cs => preorder_spec c ++ preorder_spec_list cs

end

mutual

/-- Modelled from the spec: the post-order visit sequence of a tree — children
left to right, self last. -/
def postorder_spec : TNode → List TNode
  | .mk l cs => postorder_spec_list cs ++ [.mk l cs]

/-- Modelled from the spec: post-order visit sequence of a forest. -/
def postorder_spec_list : List TNode → List TNode
  | [] => []
  | c :: cs => postorder_spec c ++ postorder_spec_list cs

end

mutual

theorem foreach_foldl (σ : Type) (func : TNode → σ → σ) :
    ∀ (t : TNode) (s : σ), foreach func t s = (preorder_spec t).foldl (fun s n => func n s) s
  | .mk l cs, s => by
    rw [foreach, preorder_spec]
    simp only [List.foldl_cons]
    exact foreach_children_foldl σ func cs (func (.mk l cs) s)

theorem foreach_children_foldl (σ : Type) (func : TNode → σ → σ) :
    ∀ (cs : List TNode) (s : σ),
      foreach_children func cs s = (preorder_spec_list cs).foldl (fun s n => func n s) s
  | [], s => by rw [foreach_children, preorder_spec_list]; rfl
  | c :: cs, s => by
    rw [foreach_children, preorder_spec_list, List.foldl_append,
      foreach_children_foldl σ func cs, foreach_foldl σ func c]

end

mutual

theorem foreach_up_foldl (σ : Type) (func : TNode → σ → σ) :
    ∀ (t : TNode) (s : σ),
      foreach_up func t s = (postorder_spec t).foldl (fun s n => func n s) s
  | .mk l cs, s => by
    rw [foreach_up, postorder_spec, List.foldl_append]
    simp only [List.foldl_cons, List.foldl_nil]
    rw [foreach_up_children_foldl σ func cs]

theorem foreach_up_children_foldl (σ : Type) (func : TNode → σ → σ) :
    ∀ (cs : List TNode) (s : σ),
      foreach_up_children func cs s = (postorder_spec_list cs).foldl (fun s n => func n s) s
  | [], s => by rw [foreach_up_children, postorder_spec_list]; rfl
  | c :: cs, s => by
    rw [foreach_up_children, postorder_spec_list, List.foldl_append,
      foreach_up_children_foldl σ func cs, foreach_up_foldl σ func c]

end

end TNode

/-- Claim C6: for every tree, `foreach` invokes the visit function on exactly the
pre-order node sequence (self before children, children left to right) and
`foreach_up` on exactly the post-order sequence (children left to right, self
last), with no early exit — the visitor is folded over the full sequence for
an arbitrary visitor state type; on the fixture the visit orders are
`[a1,b1,c1,c2,b2,c3,b3]` and `[c1,c2,b1,c3,b2,b3,a1]`. -/
theorem C6_foreach_visit_order :
    (∀ (σ : Type) (func : TNode → σ → σ) (t : TNode) (s : σ),
        TNode.foreach func t s = (TNode.preorder_spec t).foldl (fun s n => func n s) s) ∧
    (∀ (σ : Type) (func : TNode → σ → σ) (t : TNode) (s : σ),
        TNode.foreach_up func t s = (TNode.postorder_spec t).foldl (fun s n => func n s) s) ∧
    TNode.foreach (fun n acc => acc ++ [n.node_name]) get_small_test_tree_1 [] =
      ["a1", "b1", "c1", "c2", "b2", "c3", "b3"] ∧
    TNode.foreach_up (fun n acc => acc ++ [n.node_name]) get_small_test_tree_1 [] =
      ["c1", "c2", "b1", "c3", "b2", "b3", "a1"] :=
  ⟨fun σ func t s => TNode.foreach_foldl σ func t s,
   fun σ func t s => TNode.foreach_up_foldl σ func t s,
   by decide, by decide⟩

/-- Claim C7: on the fixture tree, `tree_string` is exactly the seven lines
`a1`, `:- b1`, `:  :- c1`, `:  +- c2`, `:- b2`, `:  +- c3`, `+- b3` joined
with a newline, and `numbered_tree_string` is the same lines prefixed with
the two-digit zero-padded 1-based position and a space. -/
theorem C7_tree_string_fixture :
    TNode.tree_string get_small_test_tree_1 =
      "a1\n:- b1\n:  :- c1\n:  +- c2\n:- b2\n:  +- c3\n+- b3" ∧
    TNode.numbered_tree_string get_small_test_tree_1 =
      "01 a1\n02 :- b1\n03 :  :- c1\n04 :  +- c2\n05 :- b2\n06 :  +- c3\n07 +- b3" :=
  ⟨by decide, by decide⟩

/-- Claim C3: `transform_down` applies the rule to the current node first; a
replacement has `transform_down` applied to its own children (the replaced
node is not re-examined at this position), no replacement keeps the node and
recurses into the original children; on the fixture, replacing `b1`/`b2` by
childless relabeled leaves yields `a1(b1-#, b2-#, b3)`.  `fuel` models the
Rust call stack (see `transform_down`); the fixture run completes within
fuel 10. -/
theorem C3_transform_down_preorder :
    (∀ (fuel : Nat) (rule : TNode → Option TNode) (t : TNode),
        TNode.transform_down (fuel + 1) rule t =
          match rule t with
          | some after_rule =>
              ((after_rule.children.mapM (TNode.transform_down fuel rule)).map
                (TNode.mk after_rule.label))
          | none =>
              ((t.children.mapM (TNode.transform_down fuel rule)).map
                (TNode.mk t.label))) ∧
    TNode.transform_down 10
        (fun node => if node.node_name == "b1" || node.node_name == "b2" then
            some (.mk (node.node_name ++ "-#") [])
          else none)
        get_small_test_tree_1 =
      some (.mk "a1" [.mk "b1-#" [], .mk "b2-#" [], .mk "b3" []]) :=
  ⟨fun _ _ _ => rfl, by decide⟩

/-- Claim C4: `transform_up` first recursively transforms every child, producing a
node with already-transformed children, then applies the rule to that node;
a replacement is the result, otherwise the node with transformed children is;
on the fixture, a rule truncating children to at most one yields
`a1(b1(c1))`. -/
theorem C4_transform_up_postorder :
    (∀ (rule : TNode → Option TNode) (l : String) (cs : List TNode),
        TNode.transform_up rule (.mk l cs) =
          match rule (.mk l (cs.map (TNode.transform_up rule))) with
          | some after_rule => after_rule
          | none => .mk l (cs.map (TNode.transform_up rule))) ∧
    TNode.transform_up
        (fun node => some (.mk node.node_name (node.children.take 1)))
        get_small_test_tree_1 =
      .mk "a1" [.mk "b1" [.mk "c1" []]] :=
  ⟨fun rule l cs => by
      simp only [TNode.transform_up, TNode.transform_up_children_eq],
   by decide⟩

theorem apply_rules_append {A : Type} (is_plan_integral : A → Bool) (batch_name : String)
    (xs ys : List (Rule A)) (plan : A) :
    apply_rules is_plan_integral batch_name (xs ++ ys) plan =
      match apply_rules is_plan_integral batch_name xs plan with
      | .ok q => apply_rules is_plan_integral batch_name ys q
      | .error e => .error e := by
  induction xs generalizing plan with
  | nil => simp [apply_rules]
  | cons r rs ih =>
    simp only [List.cons_append, apply_rules]
    by_cases h : is_plan_integral (r.apply plan) <;> simp [h, ih]

theorem apply_rules_error_shape {A : Type} (is_plan_integral : A → Bool) (batch_name : String)
    (rules : List (Rule A)) (plan : A) (e : CatalystError)
    (h : apply_rules is_plan_integral batch_name rules plan = .error e) :
    ∃ rule_name, e = .Tree (integrity_msg rule_name batch_name) := by
  induction rules generalizing plan with
  | nil => simp [apply_rules] at h
  | cons r rs ih =>
    simp only [apply_rules] at h
    by_cases hi : is_plan_integral (r.apply plan)
    · rw [if_pos hi] at h
      exact ih _ h
    · rw [if_neg hi] at h
      refine ⟨r.name, ?_⟩
      injection h with h
      exact h.symm

theorem batch_loop_error_shape {A : Type} [DecidableEq A] (is_plan_integral : A → Bool)
    (batch : Batch A) (n : Nat) (iteration : Nat) (current last : A) (e : CatalystError)
    (h : batch_loop is_plan_integral batch n iteration current last = .error e) :
    ∃ rule_name, e = .Tree (integrity_msg rule_name batch.name) := by
  induction iteration, current, last
    using batch_loop.induct is_plan_integral batch n with
  | case1 it cur last e' happ =>
    rw [batch_loop, happ] at h
    injection h with h
    exact apply_rules_error_shape _ _ _ _ _ (happ.trans (congrArg Except.error h))
  | case2 it cur cur' happ =>
    rw [batch_loop, happ] at h
    simp at h
  | case3 it cur last cur' happ itl hne hcap =>
    rw [batch_loop, happ] at h
    simp [hne, hcap] at h
  | case4 it cur last cur' happ itl hne hcap ih =>
    rw [batch_loop, happ] at h
    simp only [if_neg hne, if_neg hcap] at h
    exact ih h

theorem batch_loop_iter_le {A : Type} [DecidableEq A] (is_plan_integral : A → Bool)
    (batch : Batch A) (n : Nat) (iteration : Nat) (current last : A) (q : A) (k : Nat)
    (h : batch_loop is_plan_integral batch n iteration current last = .ok (q, k)) :
    k ≤ max (n + 1) (iteration + 1) := by
  induction iteration, current, last
    using batch_loop.induct is_plan_integral batch n with
  | case1 it cur last e' happ =>
    rw [batch_loop, happ] at h
    simp at h
  | case2 it cur cur' happ =>
    rw [batch_loop, happ] at h
    simp at h
    omega
  | case3 it cur last cur' happ itl hne hcap =>
    rw [batch_loop, happ] at h
    simp [hne, hcap] at h
    omega
  | case4 it cur last cur' happ itl hne hcap ih =>
    rw [batch_loop, happ] at h
    simp only [if_neg hne, if_neg hcap] at h
    have := ih h
    omega

theorem execute_error_shape {A : Type} [DecidableEq A] (is_plan_integral : A → Bool)
    (batches : List (Batch A)) (plan : A) (e : CatalystError)
    (h : execute is_plan_integral batches plan = .error e) :
    ∃ rule_name batch_name, e = .Tree (integrity_msg rule_name batch_name) := by
  induction batches generalizing plan with
  | nil => simp [execute] at h
  | cons b bs ih =>
    rw [execute] at h
    cases hb : batch_loop is_plan_integral b b.strategy.num_iterations 1 plan plan with
    | error e' =>
      rw [hb] at h
      injection h with h
      obtain ⟨rn, hrn⟩ :=
        batch_loop_error_shape is_plan_integral b _ 1 plan plan e (hb.trans (by rw [h]))
      exact ⟨rn, b.name, hrn⟩
    | ok p =>
      rw [hb] at h
      exact ih p.1 h

/-- Claim C1: `execute` processes batches strictly in declaration order (the head
batch's loop runs to completion before the remaining batches see the plan);
within each pass the batch's rules run sequentially in declaration order, each
seeing the plan produced by the previous rule; the loop repeats until the
current plan equals the previous iteration's snapshot or the iteration count
exceeds `num_iterations()` (`Once → 1`, `FixedPoint(n) → n`); consequently a
batch with strategy `Once` applies every rule exactly one pass: running it is
exactly one `apply_rules` sweep, whatever the plan. -/
theorem C1_declaration_order {A : Type} [DecidableEq A] (is_plan_integral : A → Bool) :
    Strategy.num_iterations .Once = 1 ∧
    (∀ n, Strategy.num_iterations (.FixedPoint n) = n) ∧
    (∀ (batch : Batch A) (rest : List (Batch A)) (plan : A),
        execute is_plan_integral (batch :: rest) plan =
          match batch_loop is_plan_integral batch batch.strategy.num_iterations 1
              plan plan with
          | .error e => .error e
          | .ok (q, _) => execute is_plan_integral rest q) ∧
    (∀ (batch : Batch A) (n iteration : Nat) (current last : A),
        batch_loop is_plan_integral batch n iteration current last =
          match apply_rules is_plan_integral batch.name batch.rules current with
          | .error e => .error e
          | .ok next =>
            if next = last then .ok (next, iteration + 1)
            else if n < iteration + 1 then .ok (next, iteration + 1)
            else batch_loop is_plan_integral batch n (iteration + 1) next next) ∧
    (∀ (batch_name : String) (rule : Rule A) (rest : List (Rule A)) (plan : A),
        is_plan_integral (rule.apply plan) = true →
        apply_rules is_plan_integral batch_name (rule :: rest) plan =
          apply_rules is_plan_integral batch_name rest (rule.apply plan)) ∧
    (∀ (batch_name : String) (rules : List (Rule A)) (plan : A),
        execute is_plan_integral [⟨batch_name, .Once, rules⟩] plan =
          apply_rules is_plan_integral batch_name rules plan) := by
  refine ⟨rfl, fun n => rfl, fun batch rest plan => rfl, ?_, ?_, ?_⟩
  · intro batch n iteration current last
    rw [batch_loop]
  · intro batch_name rule rest plan h
    simp [apply_rules, h]
  · intro batch_name rules plan
    rw [execute, batch_loop]
    cases happ : apply_rules is_plan_integral batch_name rules plan with
    | error e => simp [happ]
    | ok q =>
      by_cases hq : q = plan
      · simp [happ, hq, execute]
      · simp [happ, hq, Strategy.num_iterations, execute]

theorem C1_declaration_order_witness :
    apply_rules (fun _ => true) "B"
        [⟨"up", fun p => p + 1⟩, ⟨"dbl", fun p => p * 2⟩] (3 : Nat) =
      apply_rules (fun _ => true) "B" [⟨"dbl", fun p => p * 2⟩] 4 := by
  have h := (C1_declaration_order (A := Nat) (fun _ => true)).2.2.2.2.1
  exact h "B" ⟨"up", fun p => p + 1⟩ [⟨"dbl", fun p => p * 2⟩] 3 rfl

theorem execute_append {A : Type} [DecidableEq A] (is_plan_integral : A → Bool)
    (xs ys : List (Batch A)) (plan : A) :
    execute is_plan_integral (xs ++ ys) plan =
      match execute is_plan_integral xs plan with
      | .ok q => execute is_plan_integral ys q
      | .error e => .error e := by
  induction xs generalizing plan with
  | nil => simp [execute]
  | cons b bs ih =>
    simp only [List.cons_append]
    simp only [execute]
    cases hb : batch_loop is_plan_integral b b.strategy.num_iterations 1 plan plan with
    | error e => rfl
    | ok p => exact ih p.1

/-- Claim C2: `is_plan_integral` is checked immediately after every individual
rule application; the first application after which it is `false` — here the
rule `rule` of batch `batch_name`, reached after the successful earlier
batches `done_batches` and the already-checked earlier rules `done_rules` of
the same batch — makes `execute` return the typed `CatalystError::Tree` error
carrying that rule's name and that batch's name; the remaining rules of the
batch, its remaining iterations and all following batches never run, and no
plan value is returned to the caller. -/
theorem C2_integrity_error_aborts {A : Type} [DecidableEq A] (is_plan_integral : A → Bool)
    (batch_name : String) (strategy : Strategy) (done_batches : List (Batch A))
    (done_rules : List (Rule A)) (rule : Rule A)
    (more_rules : List (Rule A)) (more_batches : List (Batch A)) (plan0 plan mid : A)
    (hdone : execute is_plan_integral done_batches plan0 = .ok plan)
    (hok : apply_rules is_plan_integral batch_name done_rules plan = .ok mid)
    (hbad : is_plan_integral (rule.apply mid) = false) :
    execute is_plan_integral
        (done_batches ++
          ⟨batch_name, strategy, done_rules ++ rule :: more_rules⟩ :: more_batches) plan0 =
      .error (.Tree (integrity_msg rule.name batch_name)) := by
  have h1 : apply_rules is_plan_integral batch_name (done_rules ++ rule :: more_rules) plan =
      .error (.Tree (integrity_msg rule.name batch_name)) := by
    rw [apply_rules_append, hok]
    simp [apply_rules, hbad]
  rw [execute_append, hdone]
  show execute is_plan_integral
      (⟨batch_name, strategy, done_rules ++ rule :: more_rules⟩ :: more_batches) plan =
    .error (.Tree (integrity_msg rule.name batch_name))
  rw [execute, batch_loop]
  simp [h1]

theorem C2_integrity_error_aborts_witness :
    execute (fun p => decide (p < 3))
        [⟨"A0", .Once, [⟨"up", fun p => p + 1⟩]⟩,
         ⟨"B", .Once, [⟨"up", fun p => p + 1⟩, ⟨"up", fun p => p + 1⟩]⟩,
         ⟨"C", .Once, [⟨"up", fun p => p + 1⟩]⟩] (0 : Nat) =
      .error (.Tree (integrity_msg "up" "B")) := by
  have h := C2_integrity_error_aborts (fun p => decide (p < 3)) "B" .Once
    [⟨"A0", .Once, [⟨"up", fun p => p + 1⟩]⟩]
    [⟨"up", fun p => p + 1⟩] ⟨"up", fun p => p + 1⟩ []
    [⟨"C", .Once, [⟨"up", fun p => p + 1⟩]⟩] 0 1 2
    (by rw [execute, batch_loop]; norm_num [apply_rules, execute, Strategy.num_iterations])
    (by norm_num [apply_rules]) (by decide)
  simpa using h

/-- Claim C5: a `Rule` is a total function on plans and cannot signal an error:
the per-rule step of the executor sets the current plan to `rule.apply plan`
and the only error that can arise — from `execute` as a whole — is the
integrity-check error (third conjunct).  A rule that does not apply expresses
this by returning its input plan (the source `apply` returns a plan directly,
so "no replacement" is the identity result), and then the executor's current
plan is unchanged (second conjunct); only the rule's returned replacement ever
becomes the current plan (first conjunct). -/
theorem C5_rules_total {A : Type} [DecidableEq A] (is_plan_integral : A → Bool) :
    (∀ (batch_name : String) (rule : Rule A) (rest : List (Rule A)) (plan : A),
        apply_rules is_plan_integral batch_name (rule :: rest) plan =
          if is_plan_integral (rule.apply plan) then
            apply_rules is_plan_integral batch_name rest (rule.apply plan)
          else .error (.Tree (integrity_msg rule.name batch_name))) ∧
    (∀ (batch_name : String) (rule : Rule A) (rest : List (Rule A)) (plan : A),
        rule.apply plan = plan → is_plan_integral plan = true →
        apply_rules is_plan_integral batch_name (rule :: rest) plan =
          apply_rules is_plan_integral batch_name rest plan) ∧
    (∀ (batches : List (Batch A)) (plan : A) (e : CatalystError),
        execute is_plan_integral batches plan = .error e →
        ∃ rule_name batch_name, e = .Tree (integrity_msg rule_name batch_name)) := by
  refine ⟨fun batch_name rule rest plan => rfl, ?_, ?_⟩
  · intro batch_name rule rest plan hid hint
    simp [apply_rules, hid, hint]
  · exact fun batches plan e h => execute_error_shape is_plan_integral batches plan e h

theorem C5_rules_total_witness :
    apply_rules (fun _ => true) "B"
        [⟨"noop", fun p => p⟩, ⟨"up", fun p => p + 1⟩] (7 : Nat) =
      apply_rules (fun _ => true) "B" [⟨"up", fun p => p + 1⟩] 7 :=
  (C5_rules_total (A := Nat) (fun _ => true)).2.1 "B" ⟨"noop", fun p => p⟩
    [⟨"up", fun p => p + 1⟩] 7 rfl rfl

theorem batch_loop_u16_agrees {A : Type} [DecidableEq A] (is_plan_integral : A → Bool)
    (batch : Batch A) (n : Nat) (hn : n ≤ 65534) :
    ∀ (fuel iteration : Nat) (current last : A),
      iteration ≤ n → n + 1 - iteration ≤ fuel →
      batch_loop_u16 is_plan_integral batch n fuel iteration current last =
        some (batch_loop is_plan_integral batch n iteration current last) := by
  intro fuel
  induction fuel with
  | zero =>
    intro iteration current last h1 h2
    omega
  | succ fuel ih =>
    intro iteration current last h1 h2
    rw [batch_loop_u16, batch_loop]
    cases happ : apply_rules is_plan_integral batch.name batch.rules current with
    | error e => simp [happ]
    | ok next =>
      have hw : (iteration + 1) % 65536 = iteration + 1 := Nat.mod_eq_of_lt (by omega)
      by_cases hc : next = last
      · simp [happ, hc, hw]
      · by_cases hcap : n < iteration + 1
        · simp [happ, hc, hcap, hw]
        · simp only [happ, hw, if_neg hc, if_neg hcap]
          exact ih (iteration + 1) next next (by omega) (by omega)

theorem cap_u16_loop_never_exits :
    ∀ (fuel iteration p : Nat),
      batch_loop_u16 (fun _ => true)
        ⟨"cap", .FixedPoint 65535, [⟨"up", fun q => q + 1⟩]⟩ 65535 fuel iteration p p =
        none := by
  intro fuel
  induction fuel with
  | zero => intro iteration p; rfl
  | succ fuel ih =>
    intro iteration p
    rw [batch_loop_u16]
    have h1 : apply_rules (fun _ => (true : Bool)) "cap"
        [⟨"up", fun q => q + 1⟩] p = .ok (p + 1) := by
      simp [apply_rules]
    have h2 : ¬ (p + 1 = p) := by omega
    have h3 : ¬ (65535 < (iteration + 1) % 65536) := by omega
    simp [h1, h2, h3, ih]

/-- Claim C8, counterexample: in the program, the loop's `iteration` counter
is a `u16`, so with the constructible boundary strategy `FixedPoint(65535)`
(`num_iterations() = 65535 = u16::MAX`) and a rule that never converges
(plan `+ 1`, starting from plan 0), the cap test `iteration > 65535` can
never fire and `iteration += 1` overflows after the 65535th pass — a release
build wraps and loops forever (modelled here), a debug build panics.  On the
faithful `u16` loop, after 65536 observed passes — already more than
`num_iterations()` — the batch's loop is still running, refuting "`execute`
always terminates: each batch's loop performs at most
`Strategy::num_iterations()` passes". -/
theorem C8_cap_overflow_counterexample :
    batch_loop_u16 (fun _ => true)
      ⟨"cap", .FixedPoint 65535, [⟨"up", fun q => q + 1⟩]⟩ 65535 65536 1 (0 : Nat) 0 =
      none :=
  cap_u16_loop_never_exits 65536 1 0

/-- Claim C8 (amended): termination and the pass bound hold for every strategy
whose `num_iterations()` is at most 65534, i.e. everywhere below the
`u16::MAX` boundary exhibited by the counterexample.  On the faithful `u16`
loop, with `1 ≤ num_iterations ≤ 65534`: a fuel of `num_iterations` passes
always suffices — the loop completes, never wraps, and agrees with the
widened-counter `batch_loop` (first conjunct); the final `iteration` counter
`k` (which starts at 1 and is incremented once per pass) satisfies
`k - 1 ≤ num_iterations`, i.e. at most `num_iterations()` passes run (second
conjunct); the `FixedPoint(10)` batch whose rule increments a counter up to
ceiling 3 converges (`current == last`) after 4 of its 10 allowed passes
(third conjunct); and reaching the cap is a normal `Ok` termination, not an
error — a plan that keeps changing under `FixedPoint(3)` still yields `Ok`
after 3 passes (fourth conjunct). -/
theorem C8_loop_bounded_u16 {A : Type} [DecidableEq A] :
    (∀ (is_plan_integral : A → Bool) (batch : Batch A) (plan : A),
        1 ≤ batch.strategy.num_iterations → batch.strategy.num_iterations ≤ 65534 →
        batch_loop_u16 is_plan_integral batch batch.strategy.num_iterations
            batch.strategy.num_iterations 1 plan plan =
          some (batch_loop is_plan_integral batch batch.strategy.num_iterations 1
            plan plan)) ∧
    (∀ (is_plan_integral : A → Bool) (batch : Batch A) (plan result : A) (k : Nat),
        1 ≤ batch.strategy.num_iterations → batch.strategy.num_iterations ≤ 65534 →
        batch_loop_u16 is_plan_integral batch batch.strategy.num_iterations
            batch.strategy.num_iterations 1 plan plan = some (.ok (result, k)) →
        k - 1 ≤ batch.strategy.num_iterations) ∧
    (batch_loop_u16 (fun _ => true)
        ⟨"counter", .FixedPoint 10, [⟨"inc", fun p => min (p + 1) 3⟩]⟩ 10 10 1 (0 : Nat) 0 =
      some (.ok (3, 5)) ∧ 5 - 1 < 10) ∧
    batch_loop_u16 (fun _ => true) ⟨"cap", .FixedPoint 3, [⟨"up", fun p => p + 1⟩]⟩
        3 3 1 (0 : Nat) 0 = some (.ok (3, 4)) := by
  have hagree : ∀ (is_plan_integral : A → Bool) (batch : Batch A) (plan : A),
      1 ≤ batch.strategy.num_iterations → batch.strategy.num_iterations ≤ 65534 →
      batch_loop_u16 is_plan_integral batch batch.strategy.num_iterations
          batch.strategy.num_iterations 1 plan plan =
        some (batch_loop is_plan_integral batch batch.strategy.num_iterations 1
          plan plan) := by
    intro is_plan_integral batch plan h1 h2
    exact batch_loop_u16_agrees is_plan_integral batch _ h2 _ 1 plan plan h1 (by omega)
  refine ⟨hagree, ?_, ⟨?_, by omega⟩, ?_⟩
  · intro is_plan_integral batch plan result k h1 h2 h3
    rw [hagree is_plan_integral batch plan h1 h2] at h3
    injection h3 with h3
    have h4 := batch_loop_iter_le is_plan_integral batch
      batch.strategy.num_iterations 1 plan plan result k h3
    rw [Nat.max_eq_left (by omega)] at h4
    omega
  · rfl
  · rfl

theorem C8_loop_bounded_u16_witness :
    5 - 1 ≤ Strategy.num_iterations (.FixedPoint 10) := by
  have h := C8_loop_bounded_u16 (A := Nat)
  exact h.2.1 (fun _ => true) ⟨"counter", .FixedPoint 10, [⟨"inc", fun p => min (p + 1) 3⟩]⟩
    0 3 5 (by decide) (by decide) h.2.2.1.1

/-- Claim C10: with an empty batch list, or with batches that all carry zero rules,
`execute` returns `Ok` with a plan equal to the input.  `is_plan_integral` is
never invoked: the statement holds for an arbitrary integrity predicate,
including the constantly-false one, which would fail the run at the first
check.  A rule-less batch's loop exits after a single pass via the
convergence check — the final `iteration` counter is 2, i.e. one pass ran,
even for strategies whose cap allows more (`current == last` holds because
the empty rule sweep leaves the plan equal to the initial snapshot). -/
theorem C10_rule_less_batches {A : Type} [DecidableEq A] (is_plan_integral : A → Bool)
    (plan : A) :
    execute is_plan_integral [] plan = .ok plan ∧
    (∀ (batch_name : String) (strategy : Strategy),
        batch_loop is_plan_integral ⟨batch_name, strategy, []⟩ strategy.num_iterations 1
          plan plan = .ok (plan, 2)) ∧
    (∀ (batches : List (Batch A)), (∀ b ∈ batches, b.rules = []) →
        execute is_plan_integral batches plan = .ok plan) := by
  refine ⟨rfl, ?_, ?_⟩
  · intro batch_name strategy
    rw [batch_loop]
    simp [apply_rules]
  · intro batches hempty
    induction batches with
    | nil => rfl
    | cons b bs ih =>
      rw [execute]
      have hb : b.rules = [] := hempty b (by simp)
      have h2 : batch_loop is_plan_integral b b.strategy.num_iterations 1 plan plan =
          .ok (plan, 2) := by
        rw [batch_loop, hb]
        simp [apply_rules]
      rw [h2]
      exact ih (fun b' hb' => hempty b' (by simp [hb']))

theorem C10_rule_less_batches_witness :
    execute (fun _ => false)
        [⟨"e1", Strategy.Once, []⟩, ⟨"e2", .FixedPoint 5, []⟩] (7 : Nat) = .ok 7 := by
  refine (C10_rule_less_batches (fun _ => false) 7).2.2 _ ?_
  intro b hb
  simp only [List.mem_cons, List.mem_singleton] at hb
  rcases hb with rfl | rfl | hb
  · rfl
  · rfl
  · simp at hb
